import Mathlib

/-!
Shallow embedding of `src/size_hint.rs` from the `arbitrary` crate.

A size hint is a pair `(lower, upper)` where `lower : usize` and
`upper : Option usize`.  We model `usize` as `Nat` together with the
constant `USIZE_MAX = 2 ^ 64 - 1`; saturating addition clamps at that
constant.  Hint-producing closures `fn(usize) -> (usize, Option<usize>)`
become Lean functions `Nat → Hint`, and slices become lists.
-/

namespace SizeHint

/-- Model of `usize::MAX` on a 64-bit target. -/
def USIZE_MAX : Nat := 2 ^ 64 - 1

/-- The Rust pair type `(usize, Option<usize>)`. -/
abbrev Hint := Nat × Option Nat

/-- Model of `usize::saturating_add`: addition clamped at `USIZE_MAX`. -/
def saturating_add (a b : Nat) : Nat := min (a + b) USIZE_MAX

/-- The `MAX_DEPTH` constant inside `recursion_guard`. -/
def MAX_DEPTH : Nat := 20

/-- `recursion_guard(depth, f)` from `src/size_hint.rs`:
if `depth > MAX_DEPTH` return `(usize::MAX, None)`, else call `f(depth + 1)`. -/
def recursion_guard (depth : Nat) (f : Nat → Hint) : Hint :=
  if depth > MAX_DEPTH then (USIZE_MAX, none) else f (depth + 1)

/-- `and(lhs, rhs)`: saturating sum of lower bounds; upper bound is the
saturating sum when both are present, `None` otherwise
(`lhs.1.and_then(|lhs| rhs.1.map(|rhs| lhs.saturating_add(rhs)))`). -/
def and (lhs rhs : Hint) : Hint :=
  (saturating_add lhs.1 rhs.1,
   lhs.2.bind (fun l => rhs.2.map (fun r => saturating_add l r)))

/-- `and_all(hints)`: `hints.iter().copied().fold((0, Some(0)), and)`. -/
def and_all (hints : List Hint) : Hint :=
  hints.foldl and (0, some 0)

/-- The loop body of `and_all_lazy`: combine the accumulator with each
`hint(depth)` in turn, breaking as soon as the accumulator matches
`(usize::MAX, None)`. -/
def and_all_lazy_loop (hints : List (Nat → Hint)) (depth : Nat) (acc : Hint) : Hint :=
  match hints with
  | [] => acc
  | hint :: rest =>
    let acc' := and acc (hint depth)
    if acc' = (USIZE_MAX, none) then acc'
    else and_all_lazy_loop rest depth acc'

/-- `and_all_lazy(hints, depth)`: the loop above started at `(0, Some(0))`. -/
def and_all_lazy (hints : List (Nat → Hint)) (depth : Nat) : Hint :=
  and_all_lazy_loop hints depth (0, some 0)

/-- `or(lhs, rhs)`: minimum of the lower bounds; upper bound is the maximum
when both are present, `None` otherwise. -/
def or (lhs rhs : Hint) : Hint :=
  (min lhs.1 rhs.1,
   lhs.2.bind (fun l => rhs.2.map (fun r => max l r)))

/-- `or_all(hints)`: fold `or` over the tail seeded with the first element;
`(0, Some(0))` on the empty slice. -/
def or_all (hints : List Hint) : Hint :=
  match hints with
  | [] => (0, some 0)
  | head :: rest => rest.foldl or head

/-- The loop body of `or_all_lazy`: combine the accumulator with each
`hint(depth)` in turn, breaking as soon as the accumulator matches
`(0, None)`. -/
def or_all_lazy_loop (hints : List (Nat → Hint)) (depth : Nat) (acc : Hint) : Hint :=
  match hints with
  | [] => acc
  | hint :: rest =>
    let acc' := or acc (hint depth)
    if acc' = ((0 : Nat), (none : Option Nat)) then acc'
    else or_all_lazy_loop rest depth acc'

/-- `or_all_lazy(hints, depth)`: seed the accumulator with `head(depth)`
and run the loop over the tail; `(0, Some(0))` on the empty slice. -/
def or_all_lazy (hints : List (Nat → Hint)) (depth : Nat) : Hint :=
  match hints with
  | [] => (0, some 0)
  | head :: rest => or_all_lazy_loop rest depth (head depth)

/-- The values produced by the hint functions that `and_all_lazy` actually
invokes, in invocation order: each loop iteration invokes exactly one
function, and the loop breaks right after the accumulator reaches
`(usize::MAX, None)`. -/
def and_all_lazy_invoked (hints : List (Nat → Hint)) (depth : Nat) (acc : Hint) :
    List Hint :=
  match hints with
  | [] => []
  | hint :: rest =>
    let v := hint depth
    let acc' := and acc v
    if acc' = (USIZE_MAX, none) then [v]
    else v :: and_all_lazy_invoked rest depth acc'

/-- The values produced by the hint functions that the loop of
`or_all_lazy` actually invokes, in invocation order (the head function is
invoked before the loop starts and is not listed here). -/
def or_all_lazy_loop_invoked (hints : List (Nat → Hint)) (depth : Nat) (acc : Hint) :
    List Hint :=
  match hints with
  | [] => []
  | hint :: rest =>
    let v := hint depth
    let acc' := or acc v
    if acc' = ((0 : Nat), (none : Option Nat)) then [v]
    else v :: or_all_lazy_loop_invoked rest depth acc'

/-- All hint values `or_all_lazy` computes: the head's value, then the
values invoked by the loop. -/
def or_all_lazy_invoked (hints : List (Nat → Hint)) (depth : Nat) : List Hint :=
  match hints with
  | [] => []
  | head :: rest => head depth :: or_all_lazy_loop_invoked rest depth (head depth)

/-- Well-formedness of a size hint: when the upper bound is present, the
lower bound does not exceed it. -/
def WF (h : Hint) : Prop := ∀ u, h.2 = some u → h.1 ≤ u

/-- A size hint whose components are representable as 64-bit `usize`
values; in the Rust source this holds by the type of `usize`. -/
def InRange (h : Hint) : Prop :=
  h.1 ≤ USIZE_MAX ∧ ∀ u, h.2 = some u → u ≤ USIZE_MAX

/-! ### Helper lemmas -/

theorem and_absorb_top (x : Hint) : and (USIZE_MAX, none) x = (USIZE_MAX, none) := by
  obtain ⟨a, oa⟩ := x
  simp [and, saturating_add]

theorem or_absorb_bot (x : Hint) : or ((0 : Nat), (none : Option Nat)) x = (0, none) := by
  obtain ⟨a, oa⟩ := x
  simp [or]

theorem foldl_and_top (l : List Hint) :
    l.foldl and (USIZE_MAX, none) = (USIZE_MAX, none) := by
  induction l with
  | nil => rfl
  | cons h t ih => simp only [List.foldl_cons, and_absorb_top, ih]

theorem foldl_or_bot (l : List Hint) :
    l.foldl or ((0 : Nat), (none : Option Nat)) = (0, none) := by
  induction l with
  | nil => rfl
  | cons h t ih => simp only [List.foldl_cons, or_absorb_bot, ih]

theorem and_all_lazy_loop_eq (depth : Nat) (hints : List (Nat → Hint)) :
    ∀ acc, and_all_lazy_loop hints depth acc
      = (hints.map (fun f => f depth)).foldl and acc := by
  induction hints with
  | nil => intro acc; rfl
  | cons hint rest ih =>
    intro acc
    simp only [and_all_lazy_loop, List.map_cons, List.foldl_cons]
    by_cases h : and acc (hint depth) = (USIZE_MAX, none)
    · rw [if_pos h, h, foldl_and_top]
    · rw [if_neg h, ih]

theorem or_all_lazy_loop_eq (depth : Nat) (hints : List (Nat → Hint)) :
    ∀ acc, or_all_lazy_loop hints depth acc
      = (hints.map (fun f => f depth)).foldl or acc := by
  induction hints with
  | nil => intro acc; rfl
  | cons hint rest ih =>
    intro acc
    simp only [or_all_lazy_loop, List.map_cons, List.foldl_cons]
    by_cases h : or acc (hint depth) = ((0 : Nat), (none : Option Nat))
    · rw [if_pos h, h, foldl_or_bot]
    · rw [if_neg h, ih]

theorem and_all_lazy_eq (hints : List (Nat → Hint)) (depth : Nat) :
    and_all_lazy hints depth = and_all (hints.map (fun f => f depth)) := by
  simp only [and_all_lazy, and_all, and_all_lazy_loop_eq]

theorem or_all_lazy_eq (hints : List (Nat → Hint)) (depth : Nat) :
    or_all_lazy hints depth = or_all (hints.map (fun f => f depth)) := by
  cases hints with
  | nil => rfl
  | cons head rest =>
    simp only [or_all_lazy, or_all, List.map_cons, or_all_lazy_loop_eq]

theorem and_assoc_law (x y z : Hint) : and (and x y) z = and x (and y z) := by
  obtain ⟨a, oa⟩ := x; obtain ⟨b, ob⟩ := y; obtain ⟨c, oc⟩ := z
  cases oa <;> cases ob <;> cases oc <;>
    simp [and, saturating_add] <;> omega

theorem and_comm_law (x y : Hint) : and x y = and y x := by
  obtain ⟨a, oa⟩ := x; obtain ⟨b, ob⟩ := y
  cases oa <;> cases ob <;>
    simp [and, saturating_add] <;> omega

theorem or_assoc_law (x y z : Hint) : or (or x y) z = or x (or y z) := by
  obtain ⟨a, oa⟩ := x; obtain ⟨b, ob⟩ := y; obtain ⟨c, oc⟩ := z
  cases oa <;> cases ob <;> cases oc <;>
    simp [or] <;> omega

theorem or_comm_law (x y : Hint) : or x y = or y x := by
  obtain ⟨a, oa⟩ := x; obtain ⟨b, ob⟩ := y
  cases oa <;> cases ob <;>
    simp [or] <;> omega

theorem foldl_and_perm {l₁ l₂ : List Hint} (p : l₁.Perm l₂) :
    ∀ init, l₁.foldl and init = l₂.foldl and init := by
  induction p with
  | nil => intro init; rfl
  | cons x _ ih =>
    intro init
    simp only [List.foldl_cons]
    exact ih _
  | swap x y l =>
    intro init
    simp only [List.foldl_cons]
    rw [and_assoc_law, and_assoc_law, and_comm_law y x]
  | trans _ _ ih₁ ih₂ =>
    intro init
    rw [ih₁, ih₂]

theorem wf_and {x y : Hint} (hx : WF x) (hy : WF y) : WF (and x y) := by
  obtain ⟨a, oa⟩ := x; obtain ⟨b, ob⟩ := y
  intro u hu
  cases oa with
  | none => simp [and] at hu
  | some ua =>
    cases ob with
    | none => simp [and] at hu
    | some ub =>
      have ha := hx ua rfl
      have hb := hy ub rfl
      simp [and, saturating_add] at hu ⊢
      simp at ha hb
      omega

theorem wf_or {x y : Hint} (hx : WF x) (hy : WF y) : WF (or x y) := by
  obtain ⟨a, oa⟩ := x; obtain ⟨b, ob⟩ := y
  intro u hu
  cases oa with
  | none => simp [or] at hu
  | some ua =>
    cases ob with
    | none => simp [or] at hu
    | some ub =>
      have ha := hx ua rfl
      have hb := hy ub rfl
      simp [or] at hu ⊢
      simp at ha hb
      omega

theorem wf_foldl_and (l : List Hint) :
    ∀ acc, WF acc → (∀ h ∈ l, WF h) → WF (l.foldl and acc) := by
  induction l with
  | nil => intro acc hacc _; exact hacc
  | cons h t ih =>
    intro acc hacc hall
    simp only [List.foldl_cons]
    exact ih _ (wf_and hacc (hall h (List.mem_cons_self h t)))
      (fun x hx => hall x (List.mem_cons_of_mem h hx))

theorem wf_foldl_or (l : List Hint) :
    ∀ acc, WF acc → (∀ h ∈ l, WF h) → WF (l.foldl or acc) := by
  induction l with
  | nil => intro acc hacc _; exact hacc
  | cons h t ih =>
    intro acc hacc hall
    simp only [List.foldl_cons]
    exact ih _ (wf_or hacc (hall h (List.mem_cons_self h t)))
      (fun x hx => hall x (List.mem_cons_of_mem h hx))

theorem wf_zero : WF ((0 : Nat), (some 0 : Option Nat)) := by
  intro u hu
  simp at hu
  omega

theorem wf_and_all {l : List Hint} (hall : ∀ h ∈ l, WF h) : WF (and_all l) :=
  wf_foldl_and l _ wf_zero hall

theorem wf_or_all {l : List Hint} (hall : ∀ h ∈ l, WF h) : WF (or_all l) := by
  cases l with
  | nil => exact wf_zero
  | cons h t =>
    exact wf_foldl_or t _ (hall h (List.mem_cons_self h t))
      (fun x hx => hall x (List.mem_cons_of_mem h hx))

theorem and_invoked_append (depth : Nat) (post : List (Nat → Hint)) :
    ∀ (l : List (Nat → Hint)) (acc : Hint), l ≠ [] →
      (l.map (fun f => f depth)).foldl and acc = (USIZE_MAX, none) →
      and_all_lazy_invoked (l ++ post) depth acc = and_all_lazy_invoked l depth acc := by
  intro l
  induction l with
  | nil => intro acc hne _; exact absurd rfl hne
  | cons hint rest ih =>
    intro acc _ hfold
    simp only [List.map_cons, List.foldl_cons] at hfold
    simp only [List.cons_append, and_all_lazy_invoked]
    by_cases h : and acc (hint depth) = (USIZE_MAX, none)
    · rw [if_pos h, if_pos h]
    · rw [if_neg h, if_neg h]
      cases rest with
      | nil => exact absurd hfold h
      | cons r rs =>
        exact congrArg (List.cons (hint depth)) (ih _ (by simp) hfold)

theorem or_invoked_append (depth : Nat) (post : List (Nat → Hint)) :
    ∀ (l : List (Nat → Hint)) (acc : Hint), l ≠ [] →
      (l.map (fun f => f depth)).foldl or acc = ((0 : Nat), (none : Option Nat)) →
      or_all_lazy_loop_invoked (l ++ post) depth acc
        = or_all_lazy_loop_invoked l depth acc := by
  intro l
  induction l with
  | nil => intro acc hne _; exact absurd rfl hne
  | cons hint rest ih =>
    intro acc _ hfold
    simp only [List.map_cons, List.foldl_cons] at hfold
    simp only [List.cons_append, or_all_lazy_loop_invoked]
    by_cases h : or acc (hint depth) = ((0 : Nat), (none : Option Nat))
    · rw [if_pos h, if_pos h]
    · rw [if_neg h, if_neg h]
      cases rest with
      | nil => exact absurd hfold h
      | cons r rs =>
        exact congrArg (List.cons (hint depth)) (ih _ (by simp) hfold)

/-! ### Claims -/

/-- C1: for every list of hint-producing functions and every depth,
`and_all_lazy hints depth` equals `and_all` of the eagerly computed values
`f depth`, and `or_all_lazy hints depth` equals `or_all` of those values. -/
theorem C1_lazy_equals_eager (hints : List (Nat → Hint)) (depth : Nat) :
    and_all_lazy hints depth = and_all (hints.map (fun f => f depth)) ∧
    or_all_lazy hints depth = or_all (hints.map (fun f => f depth)) :=
  ⟨and_all_lazy_eq hints depth, or_all_lazy_eq hints depth⟩

/-- C2: `recursion_guard depth f` returns `f (depth + 1)` unchanged when
`depth ≤ 20`, and returns `(usize::MAX, None)` when `depth > 20`; in the
latter case the result does not depend on `f` at all (so `f` is never
invoked). -/
theorem C2_recursion_guard_spec (depth : Nat) (f : Nat → Hint) :
    (depth ≤ 20 → recursion_guard depth f = f (depth + 1)) ∧
    (20 < depth → recursion_guard depth f = (USIZE_MAX, none)) ∧
    (20 < depth → ∀ g : Nat → Hint, recursion_guard depth f = recursion_guard depth g) := by
  refine ⟨fun h => ?_, fun h => ?_, fun h g => ?_⟩
  · simp only [recursion_guard, MAX_DEPTH]
    rw [if_neg (by omega)]
  · simp only [recursion_guard, MAX_DEPTH]
    rw [if_pos (by omega)]
  · simp only [recursion_guard, MAX_DEPTH]
    rw [if_pos (by omega), if_pos (by omega)]

/-- Witness for C2 at `depth = 0` and `depth = 21`. -/
theorem C2_recursion_guard_spec_witness :
    recursion_guard 0 (fun d => (d, some d)) = (1, some 1) ∧
    recursion_guard 21 (fun d => (d, some d)) = (USIZE_MAX, none) :=
  ⟨((C2_recursion_guard_spec 0 (fun d => (d, some d))).1 (by decide)).trans rfl,
   (C2_recursion_guard_spec 21 (fun d => (d, some d))).2.1 (by decide)⟩

/-- C3: the lower bound of `and` is the saturating (clamped at
`USIZE_MAX`, never wrapping) sum of the lower bounds; the upper bound is
present exactly when both inputs have one, and is then their saturating
sum; plus the two concrete cases from the claim. -/
theorem C3_and_spec (lhs rhs : Hint) :
    (and lhs rhs).1 = min (lhs.1 + rhs.1) USIZE_MAX ∧
    (and lhs rhs).1 ≤ USIZE_MAX ∧
    (lhs.1 + rhs.1 ≤ USIZE_MAX → (and lhs rhs).1 = lhs.1 + rhs.1) ∧
    (∀ u1 u2, lhs.2 = some u1 → rhs.2 = some u2 →
      (and lhs rhs).2 = some (saturating_add u1 u2)) ∧
    (lhs.2 = none ∨ rhs.2 = none → (and lhs rhs).2 = none) ∧
    and (2, some 2) (3, some 3) = (5, some 5) ∧
    and (2, some 2) (3, none) = (5, none) := by
  obtain ⟨a, oa⟩ := lhs; obtain ⟨b, ob⟩ := rhs
  refine ⟨rfl, Nat.min_le_right _ _, fun h => ?_, fun u1 u2 h1 h2 => ?_, fun h => ?_,
    by decide, by decide⟩
  · simp only [and, saturating_add]
    omega
  · simp only at h1 h2
    subst h1; subst h2
    simp [and]
  · simp only at h
    rcases h with h | h
    · subst h
      simp [and]
    · subst h
      cases oa <;> simp [and]

/-- Witness for C3 discharging the conditional clauses at concrete inputs. -/
theorem C3_and_spec_witness :
    (and ((2 : Nat), (some 2 : Option Nat)) ((3 : Nat), (some 3 : Option Nat))).1 = 2 + 3 ∧
    (and ((2 : Nat), (some 2 : Option Nat)) ((3 : Nat), (some 3 : Option Nat))).2
      = some (saturating_add 2 3) ∧
    (and ((2 : Nat), (some 2 : Option Nat)) ((3 : Nat), (none : Option Nat))).2 = none :=
  ⟨(C3_and_spec (2, some 2) (3, some 3)).2.2.1 (by decide),
   (C3_and_spec (2, some 2) (3, some 3)).2.2.2.1 2 3 rfl rfl,
   (C3_and_spec (2, some 2) (3, none)).2.2.2.2.1 (Or.inr rfl)⟩

/-- C4: the lower bound of `or` is the minimum of the lower bounds; the
upper bound is present exactly when both inputs have one, and is then
their maximum; plus the two concrete cases from the claim. -/
theorem C4_or_spec (lhs rhs : Hint) :
    (or lhs rhs).1 = min lhs.1 rhs.1 ∧
    (∀ u1 u2, lhs.2 = some u1 → rhs.2 = some u2 →
      (or lhs rhs).2 = some (max u1 u2)) ∧
    (lhs.2 = none ∨ rhs.2 = none → (or lhs rhs).2 = none) ∧
    or (2, some 2) (3, some 3) = (2, some 3) ∧
    or (2, some 2) (3, none) = (2, none) := by
  obtain ⟨a, oa⟩ := lhs; obtain ⟨b, ob⟩ := rhs
  refine ⟨rfl, fun u1 u2 h1 h2 => ?_, fun h => ?_, by decide, by decide⟩
  · simp only at h1 h2
    subst h1; subst h2
    simp [or]
  · simp only at h
    rcases h with h | h
    · subst h
      simp [or]
    · subst h
      cases oa <;> simp [or]

/-- Witness for C4 discharging the conditional clauses at concrete inputs. -/
theorem C4_or_spec_witness :
    (or ((2 : Nat), (some 2 : Option Nat)) ((3 : Nat), (some 3 : Option Nat))).2
      = some (max 2 3) ∧
    (or ((2 : Nat), (some 2 : Option Nat)) ((3 : Nat), (none : Option Nat))).2 = none :=
  ⟨(C4_or_spec (2, some 2) (3, some 3)).2.1 2 3 rfl rfl,
   (C4_or_spec (2, some 2) (3, none)).2.2.1 (Or.inr rfl)⟩

/-- C5: `and` is associative and commutative, and `(0, Some 0)` is its
identity element for hints whose components are representable `usize`
values (`InRange`, automatic in the Rust source). -/
theorem C5_and_algebra (x y z : Hint) :
    and (and x y) z = and x (and y z) ∧
    and x y = and y x ∧
    (InRange x → and ((0 : Nat), (some 0 : Option Nat)) x = x) := by
  refine ⟨and_assoc_law x y z, and_comm_law x y, fun hx => ?_⟩
  obtain ⟨a, oa⟩ := x
  obtain ⟨h1, h2⟩ := hx
  simp only at h1
  cases oa with
  | none =>
    simp [and, saturating_add]
    omega
  | some u =>
    have hu := h2 u rfl
    simp only at hu
    simp [and, saturating_add]
    omega

/-- Witness for C5 at `x = (2, Some 2)`. -/
theorem C5_and_algebra_witness :
    and ((0 : Nat), (some 0 : Option Nat)) ((2 : Nat), (some 2 : Option Nat))
      = (2, some 2) :=
  (C5_and_algebra (2, some 2) (2, some 2) (2, some 2)).2.2
    ⟨by decide, fun u hu => by simp at hu; subst hu; decide⟩

/-- C6: `or` is associative, commutative and idempotent. -/
theorem C6_or_algebra (x y z : Hint) :
    or (or x y) z = or x (or y z) ∧ or x y = or y x ∧ or x x = x := by
  refine ⟨or_assoc_law x y z, or_comm_law x y, ?_⟩
  obtain ⟨a, oa⟩ := x
  cases oa <;> simp [or]

/-- C7: `and_all` is the left fold of `and` seeded with `(0, Some 0)`, and
its value is invariant under any permutation of the input list. -/
theorem C7_and_all_perm (hints : List Hint) :
    and_all hints = hints.foldl and ((0 : Nat), (some 0 : Option Nat)) ∧
    ∀ other : List Hint, hints.Perm other → and_all hints = and_all other := by
  refine ⟨rfl, fun other p => ?_⟩
  simp only [and_all]
  exact foldl_and_perm p _

/-- Witness for C7 on a concrete transposition. -/
theorem C7_and_all_perm_witness :
    and_all [((1 : Nat), (some 1 : Option Nat)), ((2 : Nat), (none : Option Nat))]
      = and_all [((2 : Nat), (none : Option Nat)), ((1 : Nat), (some 1 : Option Nat))] :=
  (C7_and_all_perm _).2 _ (List.Perm.swap _ _ _)

/-- C8 as stated is false for `or_all_lazy`: the head function's value
seeds the accumulator with no fixed-point check before the loop, so after
the one-element prefix `[fun _ => (0, None)]` has brought the accumulator
to the absorbing fixed point `(0, None)`, the next function is still
invoked (its value `(1, Some 1)` appears in the invocation trace). -/
theorem C8_cex :
    or_all_lazy [fun _ => ((0 : Nat), (none : Option Nat))] 0 = (0, none) ∧
    or_all_lazy_invoked
        [fun _ => ((0 : Nat), (none : Option Nat)), fun _ => ((1 : Nat), some 1)] 0
      = [(0, none), (1, some 1)] := by
  constructor <;> rfl

/-- C8 amended: for `and_all_lazy`, once a prefix of the function list
folds to `(usize::MAX, None)`, appending further functions leaves the
invocation trace unchanged, so they are never invoked. For `or_all_lazy`
the same holds only for prefixes of length at least 2 (the head plus at
least one loop iteration), because the head seeds the accumulator without
a fixed-point check. -/
theorem C8_amended_short_circuit :
    (∀ (pre post : List (Nat → Hint)) (depth : Nat),
      and_all (pre.map (fun f => f depth)) = (USIZE_MAX, none) →
      and_all_lazy_invoked (pre ++ post) depth ((0 : Nat), (some 0 : Option Nat))
        = and_all_lazy_invoked pre depth ((0 : Nat), (some 0 : Option Nat))) ∧
    (∀ (pre post : List (Nat → Hint)) (depth : Nat),
      2 ≤ pre.length →
      or_all (pre.map (fun f => f depth)) = ((0 : Nat), (none : Option Nat)) →
      or_all_lazy_invoked (pre ++ post) depth = or_all_lazy_invoked pre depth) := by
  constructor
  · intro pre post depth hfold
    cases pre with
    | nil => simp [and_all] at hfold
    | cons h t =>
      exact and_invoked_append depth post (h :: t) _ (by simp) hfold
  · intro pre post depth hlen hfold
    cases pre with
    | nil => simp at hlen
    | cons head rest =>
      cases rest with
      | nil => simp at hlen
      | cons r rs =>
        simp only [List.cons_append, or_all_lazy_invoked]
        exact congrArg (List.cons (head depth))
          (or_invoked_append depth post (r :: rs) (head depth) (by simp) hfold)

/-- Witness for the amended C8 at concrete prefixes. -/
theorem C8_amended_short_circuit_witness :
    and_all_lazy_invoked
        ([fun _ => ((USIZE_MAX : Nat), (none : Option Nat))] ++ [fun _ => ((1 : Nat), some 1)])
        0 ((0 : Nat), (some 0 : Option Nat))
      = and_all_lazy_invoked [fun _ => ((USIZE_MAX : Nat), (none : Option Nat))]
        0 ((0 : Nat), (some 0 : Option Nat)) ∧
    or_all_lazy_invoked
        ([fun _ => ((0 : Nat), (none : Option Nat)), fun _ => ((0 : Nat), (none : Option Nat))]
          ++ [fun _ => ((1 : Nat), some 1)]) 0
      = or_all_lazy_invoked
        [fun _ => ((0 : Nat), (none : Option Nat)), fun _ => ((0 : Nat), (none : Option Nat))] 0 :=
  ⟨C8_amended_short_circuit.1 _ _ 0 (by decide),
   C8_amended_short_circuit.2 _ _ 0 (by decide) (by decide)⟩

/-- C9: every one of the four fold operations returns `(0, Some 0)` on the
empty input. -/
theorem C9_empty_folds :
    and_all [] = ((0 : Nat), (some 0 : Option Nat)) ∧
    or_all [] = ((0 : Nat), (some 0 : Option Nat)) ∧
    (∀ depth : Nat, and_all_lazy [] depth = ((0 : Nat), (some 0 : Option Nat))) ∧
    (∀ depth : Nat, or_all_lazy [] depth = ((0 : Nat), (some 0 : Option Nat))) :=
  ⟨rfl, rfl, fun _ => rfl, fun _ => rfl⟩

/-- C10: `and` and `or` preserve well-formedness (lower bound at most the
upper bound whenever the latter is present), and consequently all four
fold operations return well-formed hints from well-formed inputs. -/
theorem C10_wf_preserved :
    (∀ lhs rhs : Hint, WF lhs → WF rhs → WF (and lhs rhs) ∧ WF (or lhs rhs)) ∧
    (∀ hints : List Hint, (∀ h ∈ hints, WF h) →
      WF (and_all hints) ∧ WF (or_all hints)) ∧
    (∀ (hints : List (Nat → Hint)) (depth : Nat), (∀ f ∈ hints, WF (f depth)) →
      WF (and_all_lazy hints depth) ∧ WF (or_all_lazy hints depth)) := by
  refine ⟨fun lhs rhs h1 h2 => ⟨wf_and h1 h2, wf_or h1 h2⟩,
    fun hints hall => ⟨wf_and_all hall, wf_or_all hall⟩,
    fun hints depth hall => ?_⟩
  have hmap : ∀ h ∈ hints.map (fun f => f depth), WF h := by
    intro h hh
    rcases List.mem_map.mp hh with ⟨f, hf, rfl⟩
    exact hall f hf
  constructor
  · rw [and_all_lazy_eq]
    exact wf_and_all hmap
  · rw [or_all_lazy_eq]
    exact wf_or_all hmap

/-- Witness for C10 at concrete well-formed hints. -/
theorem C10_wf_preserved_witness :
    WF (and ((1 : Nat), (some 2 : Option Nat)) ((3 : Nat), (some 4 : Option Nat))) ∧
    WF (or ((1 : Nat), (some 2 : Option Nat)) ((3 : Nat), (some 4 : Option Nat))) :=
  C10_wf_preserved.1 (1, some 2) (3, some 4)
    (fun u hu => by simp at hu; omega)
    (fun u hu => by simp at hu; omega)

end SizeHint
